import Mathlib

/-!
# Verification of `netlify-cache-nextjs` (`src/index.ts`)

Shallow embedding of the build-plugin module in `src/index.ts`:

* `generateAbsolutePaths` — the path resolver, built on Node.js
  `path.posix.join` (the TS file does `import {join as joinPaths} from 'path'`;
  Netlify builds run on Linux, so the posix variant applies).  The Node
  `join`/`normalize` algorithms are modelled faithfully at the level of
  `/`-separated segments: `join` concatenates the non-empty parts with a
  single `/` and normalizes; `normalize` drops empty and `"."` segments,
  resolves `".."` against a segment stack (keeping leading `".."`s for
  relative paths, dropping them for absolute ones), and re-attaches the
  absolute-prefix and trailing-separator markers.
* `onPreBuild` / `onPostBuild` — the two lifecycle hooks.  The external
  collaborators (`utils.cache.restore`, `utils.cache.save`, `existsSync`,
  `utils.status.show`, `console.log` / `console.error`, and the three
  never-called `utils.build.*` abort functions) are modelled by an
  environment of response functions plus an explicit trace of the calls
  each hook performs.  Both hooks are total Lean functions: the TS code
  contains no `throw`, so every invocation completes normally.
-/

set_option autoImplicit false

namespace NetlifyCacheNextjs

/-! ## Node.js `path.posix` model -/

/-- A path segment: the run of characters between two `/` separators. -/
abbrev Seg := List Char

/-- The `".."` segment. -/
def dotdot : Seg := ['.', '.']

/-- Split a character list at every `/`; `cur` is the reversed current
segment.  `splitSegsAux cur cs` returns the segments of
`cur.reverse ++ cs`. -/
def splitSegsAux : List Char → List Char → List Seg
  | cur, [] => [cur.reverse]
  | cur, c :: rest =>
    if c = '/' then cur.reverse :: splitSegsAux [] rest
    else splitSegsAux (c :: cur) rest

/-- The `/`-separated segments of a character list. -/
def splitSegs (cs : List Char) : List Seg := splitSegsAux [] cs

/-- Node's `normalizeString` skips empty segments (repeated or leading
separators) and `"."` segments. -/
def keepSeg (s : Seg) : Bool := decide (s ≠ [] ∧ s ≠ ['.'])

/-- The segment-resolution loop of Node's `normalizeString`: fold the
segments into a stack (head = innermost directory).  A `".."` pops a
non-`".."` top; against an empty or all-`".."` stack it is kept only when
`al` (Node's `allowAboveRoot`, true for relative paths) is set. -/
def resolveStack (al : Bool) : List Seg → List Seg → List Seg
  | stack, [] => stack
  | stack, seg :: rest =>
    if seg = dotdot then
      match stack with
      | [] => resolveStack al (if al then [dotdot] else []) rest
      | top :: stk2 =>
        if top = dotdot then resolveStack al (if al then dotdot :: stack else stack) rest
        else resolveStack al stk2 rest
    else resolveStack al (seg :: stack) rest

/-- Join segments with a single `/` between consecutive ones. -/
def joinSegs : List Seg → List Char
  | [] => []
  | [s] => s
  | s :: rest => s ++ '/' :: joinSegs rest

/-- The resolved segment stack of a path (head = last segment). -/
def coreSegs (al : Bool) (cs : List Char) : List Seg :=
  resolveStack al [] ((splitSegs cs).filter keepSeg)

/-- Node.js `path.posix.normalize`, on character lists. -/
def normalizeChars (cs : List Char) : List Char :=
  if cs = [] then ['.']
  else
    let isAbs : Bool := cs.head? = some '/'
    let trailing : Bool := cs.getLast? = some '/'
    let body := joinSegs (coreSegs (!isAbs) cs).reverse
    if body = [] then
      if isAbs then ['/'] else if trailing then ['.', '/'] else ['.']
    else
      let body2 := if trailing then body ++ ['/'] else body
      if isAbs then '/' :: body2 else body2

/-- Node.js `path.posix.join`, the `joinPaths` import of `src/index.ts`:
drop empty arguments, concatenate with `/`, normalize; all-empty input
yields `"."`. -/
def joinPaths (parts : List String) : String :=
  let ps := (parts.map String.toList).filter fun p => decide (p ≠ [])
  if ps = [] then "." else String.mk (normalizeChars (joinSegs ps))

/-! ## The program: `src/index.ts` -/

/-- The plugin's `inputs` (TOML configuration), `interface NetlifyInputs`. -/
structure NetlifyInputs where
  custom_build_dir_name : String
  build_dir_path : String

/-- `netlifyConfig.build` as used in `interface NetlifyOpts`. -/
structure NetlifyBuildConfig where
  base : String

/-- The `netlifyConfig` field of `interface NetlifyOpts`. -/
structure NetlifyConfig where
  build : NetlifyBuildConfig

/-- The hook-invocation context (`interface NetlifyOpts`, minus `utils`,
whose behavior lives in `HookEnv`). -/
structure NetlifyOpts where
  netlifyConfig : NetlifyConfig
  inputs : NetlifyInputs

/-- Behavior of the external collaborators during one hook invocation:
the boolean each `utils.cache` operation resolves to (as a function of
the arguments the hook passes) and the `existsSync` answer. -/
structure HookEnv where
  restoreResult : String → Bool
  saveResult : String → List String → Bool
  existsOnDisk : String → Bool

/-- An argument record of one `utils.status.show` call. -/
structure StatusInfo where
  title : Option String
  summary : String
  text : Option String

/-- Everything a hook invocation does to its collaborators, in call
order within each list. -/
structure Trace where
  restoreCalls : List String
  saveCalls : List (String × List String)
  statusCalls : List StatusInfo
  logs : List String
  errorLogs : List String
  failBuildCalls : List String
  failPluginCalls : List String
  cancelBuildCalls : List String

/-- The return type of `generateAbsolutePaths`: its `absolute` field. -/
structure AbsolutePathsInfo where
  buildDir : String
  manifest : String

/-- The return type of `generateAbsolutePaths`. -/
structure GeneratedPaths where
  absolute : AbsolutePathsInfo
  buildDirName : String

/-- `generateAbsolutePaths` of `src/index.ts` (lines 32-60).  The TS
function receives `Pick<NetlifyOpts, 'inputs'>` and reads only
`options.inputs`; the model takes the `inputs` record directly. -/
def generateAbsolutePaths (inputs : NetlifyInputs) : GeneratedPaths :=
  let buildDirName := inputs.custom_build_dir_name
  let buildDirPathFromProject := inputs.build_dir_path
  let absoluteBuildDirPath := joinPaths [buildDirPathFromProject, buildDirName, "cache"]
  let manifestPath := joinPaths [absoluteBuildDirPath, "..", "build-manifest.json"]
  { absolute := { buildDir := absoluteBuildDirPath, manifest := manifestPath },
    buildDirName := buildDirName }

/-- `onPreBuild` of `src/index.ts` (lines 67-81): resolve paths, call
`utils.cache.restore(buildDir)`, log the `existsSync` diagnostic, then
either `status.show` + log (success) or `console.error` (failure).  The
three `utils.build.*` abort functions are never called. -/
def onPreBuild (opts : NetlifyOpts) (env : HookEnv) : Trace :=
  let paths := generateAbsolutePaths opts.inputs
  let buildDir := paths.absolute.buildDir
  let name := paths.buildDirName
  let success := env.restoreResult buildDir
  let existsLog := buildDir ++ " " ++
    (if env.existsOnDisk buildDir then "exists" else "does not exist") ++ " on disk"
  let message := "Restored the cached " ++ name ++ " folder at the location " ++ buildDir
  { restoreCalls := [buildDir],
    saveCalls := [],
    statusCalls :=
      if success then [{ title := none, summary := "Restored the " ++ name ++ " folder",
                         text := some message }]
      else [],
    logs := if success then [existsLog, message] else [existsLog],
    errorLogs :=
      if success then []
      else ["Couldn\x27t restore the cache for the " ++ name ++ " folder at the location " ++
            buildDir],
    failBuildCalls := [],
    failPluginCalls := [],
    cancelBuildCalls := [] }

/-- `onPostBuild` of `src/index.ts` (lines 88-105): resolve paths, log the
`existsSync` diagnostic, call `utils.cache.save(buildDir, {digests:
[manifest]})`, then either `status.show` + log (success) or
`console.error` (failure).  The abort functions are never called. -/
def onPostBuild (opts : NetlifyOpts) (env : HookEnv) : Trace :=
  let paths := generateAbsolutePaths opts.inputs
  let buildDir := paths.absolute.buildDir
  let name := paths.buildDirName
  let existsLog := buildDir ++ " " ++
    (if env.existsOnDisk buildDir then "exists" else "does not exist") ++ " on disk"
  let success := env.saveResult buildDir [paths.absolute.manifest]
  let message := "Cached the " ++ name ++ " folder at the location " ++ buildDir
  { restoreCalls := [],
    saveCalls := [(buildDir, [paths.absolute.manifest])],
    statusCalls :=
      if success then [{ title := none, summary := "Saved the " ++ name ++ " folder",
                         text := some message }]
      else [],
    logs := if success then [existsLog, message] else [existsLog],
    errorLogs :=
      if success then []
      else ["Couldn\x27t cache the " ++ name ++ " folder at the location " ++ buildDir],
    failBuildCalls := [],
    failPluginCalls := [],
    cancelBuildCalls := [] }

/-- The default configuration inputs from the plugin's manifest:
`custom_build_dir_name = ".next"`, `build_dir_path = "."`. -/
def defaultInputs : NetlifyInputs :=
  { custom_build_dir_name := ".next", build_dir_path := "." }

/-- A concrete hook-invocation context with the default inputs. -/
def defaultOpts : NetlifyOpts :=
  { netlifyConfig := { build := { base := "" } }, inputs := defaultInputs }

/-- An environment whose cache operations all succeed. -/
def envAllTrue : HookEnv :=
  { restoreResult := fun _ => true, saveResult := fun _ _ => true,
    existsOnDisk := fun _ => true }

/-- An environment whose cache operations all fail. -/
def envAllFalse : HookEnv :=
  { restoreResult := fun _ => false, saveResult := fun _ _ => false,
    existsOnDisk := fun _ => false }


/-- A well-formed path segment: nonempty, not `"."`, and containing no
separator.  Exactly the segments that `keepSeg` retains out of a split. -/
def OkSeg (s : Seg) : Prop := s ≠ [] ∧ s ≠ ['.'] ∧ '/' ∉ s

/-- Invariant of the `resolveStack` accumulator: well-formed segments with
every `".."` at the bottom of the stack, and none at all when `al` is
false (absolute paths drop `".."`s that would climb above the root). -/
def GoodStack (al : Bool) (st : List Seg) : Prop :=
  ∃ front k, st = front ++ List.replicate k dotdot ∧
    (∀ s ∈ front, OkSeg s ∧ s ≠ dotdot) ∧ (al = false → k = 0)

/-! ## Claim theorems (except the C2 path-algebra development) -/

/-- C5: `onPreBuild` invokes `utils.cache.restore` exactly once, with the
`buildDir` path that `generateAbsolutePaths` produces for the same
configuration inputs. -/
theorem restoreHook_calls_restore_once (opts : NetlifyOpts) (env : HookEnv) :
    (onPreBuild opts env).restoreCalls =
      [(generateAbsolutePaths opts.inputs).absolute.buildDir] := rfl

/-- C6: `onPostBuild` invokes `utils.cache.save` exactly once, with the
`buildDir` path that `generateAbsolutePaths` produces for the same inputs,
and the resolved manifest path is among the digest sources of every save
call it makes. -/
theorem saveHook_calls_save_once (opts : NetlifyOpts) (env : HookEnv) :
    (onPostBuild opts env).saveCalls =
      [((generateAbsolutePaths opts.inputs).absolute.buildDir,
        [(generateAbsolutePaths opts.inputs).absolute.manifest])] ∧
    ∀ c ∈ (onPostBuild opts env).saveCalls,
      (generateAbsolutePaths opts.inputs).absolute.manifest ∈ c.2 := by
  refine ⟨rfl, ?_⟩
  intro c hc
  have h1 : (onPostBuild opts env).saveCalls =
      [((generateAbsolutePaths opts.inputs).absolute.buildDir,
        [(generateAbsolutePaths opts.inputs).absolute.manifest])] := rfl
  rw [h1, List.mem_singleton] at hc
  simp [hc]

/-- C10: neither hook reads `netlifyConfig`: contexts agreeing on `inputs`
(and run against the same collaborator behavior) produce identical traces,
whatever their `netlifyConfig` (including `build.base`). -/
theorem hooks_ignore_netlifyConfig (inputs : NetlifyInputs)
    (cfg1 cfg2 : NetlifyConfig) (env : HookEnv) :
    onPreBuild { netlifyConfig := cfg1, inputs := inputs } env =
      onPreBuild { netlifyConfig := cfg2, inputs := inputs } env ∧
    onPostBuild { netlifyConfig := cfg1, inputs := inputs } env =
      onPostBuild { netlifyConfig := cfg2, inputs := inputs } env :=
  ⟨rfl, rfl⟩

/-- C3: `generateAbsolutePaths` is a pure function of the two
configuration-input strings: calls whose inputs agree on
`custom_build_dir_name` and `build_dir_path` yield identical `buildDir`,
`manifest`, and `buildDirName` strings (in the embedding it is a total
Lean function, hence has no I/O and no side effects). -/
theorem generateAbsolutePaths_deterministic (i1 i2 : NetlifyInputs)
    (h1 : i1.custom_build_dir_name = i2.custom_build_dir_name)
    (h2 : i1.build_dir_path = i2.build_dir_path) :
    (generateAbsolutePaths i1).absolute.buildDir =
      (generateAbsolutePaths i2).absolute.buildDir ∧
    (generateAbsolutePaths i1).absolute.manifest =
      (generateAbsolutePaths i2).absolute.manifest ∧
    (generateAbsolutePaths i1).buildDirName =
      (generateAbsolutePaths i2).buildDirName := by
  cases i1; cases i2
  cases h1; cases h2
  exact ⟨rfl, rfl, rfl⟩

/-- C3 witness: two calls at the default inputs agree on all three
fields. -/
theorem generateAbsolutePaths_deterministic_witness :
    (generateAbsolutePaths defaultInputs).absolute.buildDir =
      (generateAbsolutePaths defaultInputs).absolute.buildDir ∧
    (generateAbsolutePaths defaultInputs).absolute.manifest =
      (generateAbsolutePaths defaultInputs).absolute.manifest ∧
    (generateAbsolutePaths defaultInputs).buildDirName =
      (generateAbsolutePaths defaultInputs).buildDirName :=
  generateAbsolutePaths_deterministic defaultInputs defaultInputs rfl rfl

/-- C4 counterexample: at the default inputs (`.next`, `.`), the resolved
`buildDir` is NOT `"./.next/cache"` — Node's `path.join` normalizes the
leading `"."` segment away. -/
theorem default_buildDir_not_dot_prefixed :
    (generateAbsolutePaths defaultInputs).absolute.buildDir ≠ "./.next/cache" := by
  decide

/-- C4 amended: for `custom_build_dir_name = ".next"` and
`build_dir_path = "."` the resolver produces `buildDir = ".next/cache"`
and `manifest = ".next/build-manifest.json"` (the `"./"` prefix of the
spec's scenario is normalized away by `path.join`). -/
theorem default_paths_resolved :
    (generateAbsolutePaths defaultInputs).absolute.buildDir = ".next/cache" ∧
    (generateAbsolutePaths defaultInputs).absolute.manifest =
      ".next/build-manifest.json" := by
  constructor <;> decide

/-- C7: when the cache collaborator reports failure (`false`), both hooks
still complete normally — in the embedding each hook is a total function
producing a trace (the TS bodies contain no `throw`) — and neither calls
`failBuild`, `failPlugin`, or `cancelBuild`; the failure surfaces only as
a `console.error` diagnostic. -/
theorem hooks_nonfatal_on_failure (opts : NetlifyOpts) (env : HookEnv)
    (h1 : env.restoreResult
      (generateAbsolutePaths opts.inputs).absolute.buildDir = false)
    (h2 : env.saveResult (generateAbsolutePaths opts.inputs).absolute.buildDir
      [(generateAbsolutePaths opts.inputs).absolute.manifest] = false) :
    ((onPreBuild opts env).failBuildCalls = [] ∧
     (onPreBuild opts env).failPluginCalls = [] ∧
     (onPreBuild opts env).cancelBuildCalls = [] ∧
     (onPreBuild opts env).errorLogs.length = 1) ∧
    ((onPostBuild opts env).failBuildCalls = [] ∧
     (onPostBuild opts env).failPluginCalls = [] ∧
     (onPostBuild opts env).cancelBuildCalls = [] ∧
     (onPostBuild opts env).errorLogs.length = 1) := by
  refine ⟨⟨rfl, rfl, rfl, ?_⟩, ⟨rfl, rfl, rfl, ?_⟩⟩ <;>
    simp [onPreBuild, onPostBuild, h1, h2]

/-- C7 witness: instantiated at the default context and an all-failing
collaborator environment. -/
theorem hooks_nonfatal_on_failure_witness :
    ((onPreBuild defaultOpts envAllFalse).failBuildCalls = [] ∧
     (onPreBuild defaultOpts envAllFalse).failPluginCalls = [] ∧
     (onPreBuild defaultOpts envAllFalse).cancelBuildCalls = [] ∧
     (onPreBuild defaultOpts envAllFalse).errorLogs.length = 1) ∧
    ((onPostBuild defaultOpts envAllFalse).failBuildCalls = [] ∧
     (onPostBuild defaultOpts envAllFalse).failPluginCalls = [] ∧
     (onPostBuild defaultOpts envAllFalse).cancelBuildCalls = [] ∧
     (onPostBuild defaultOpts envAllFalse).errorLogs.length = 1) :=
  hooks_nonfatal_on_failure defaultOpts envAllFalse rfl rfl

/-- C8: when the cache collaborator reports failure (`false`), neither
hook calls `utils.status.show`; the status sink is reached only on the
success branch. -/
theorem hooks_no_status_on_failure (opts : NetlifyOpts) (env : HookEnv)
    (h1 : env.restoreResult
      (generateAbsolutePaths opts.inputs).absolute.buildDir = false)
    (h2 : env.saveResult (generateAbsolutePaths opts.inputs).absolute.buildDir
      [(generateAbsolutePaths opts.inputs).absolute.manifest] = false) :
    (onPreBuild opts env).statusCalls = [] ∧
    (onPostBuild opts env).statusCalls = [] := by
  constructor <;> simp [onPreBuild, onPostBuild, h1, h2]

/-- C8 witness: instantiated at the default context and an all-failing
collaborator environment. -/
theorem hooks_no_status_on_failure_witness :
    (onPreBuild defaultOpts envAllFalse).statusCalls = [] ∧
    (onPostBuild defaultOpts envAllFalse).statusCalls = [] :=
  hooks_no_status_on_failure defaultOpts envAllFalse rfl rfl

/-- C9: the `existsSync` check feeds only the diagnostic log line.  Two
environments that agree on the cache collaborator's responses — however
their filesystem answers differ — yield hook traces with identical
collaborator calls, status reports, error logs and (absent) abort calls;
only `logs` may differ. -/
theorem exists_check_no_control_flow (opts : NetlifyOpts)
    (env1 env2 : HookEnv)
    (hr : env1.restoreResult = env2.restoreResult)
    (hs : env1.saveResult = env2.saveResult) :
    ((onPreBuild opts env1).restoreCalls = (onPreBuild opts env2).restoreCalls ∧
     (onPreBuild opts env1).saveCalls = (onPreBuild opts env2).saveCalls ∧
     (onPreBuild opts env1).statusCalls = (onPreBuild opts env2).statusCalls ∧
     (onPreBuild opts env1).errorLogs = (onPreBuild opts env2).errorLogs ∧
     (onPreBuild opts env1).failBuildCalls = (onPreBuild opts env2).failBuildCalls ∧
     (onPreBuild opts env1).failPluginCalls = (onPreBuild opts env2).failPluginCalls ∧
     (onPreBuild opts env1).cancelBuildCalls = (onPreBuild opts env2).cancelBuildCalls) ∧
    ((onPostBuild opts env1).restoreCalls = (onPostBuild opts env2).restoreCalls ∧
     (onPostBuild opts env1).saveCalls = (onPostBuild opts env2).saveCalls ∧
     (onPostBuild opts env1).statusCalls = (onPostBuild opts env2).statusCalls ∧
     (onPostBuild opts env1).errorLogs = (onPostBuild opts env2).errorLogs ∧
     (onPostBuild opts env1).failBuildCalls = (onPostBuild opts env2).failBuildCalls ∧
     (onPostBuild opts env1).failPluginCalls = (onPostBuild opts env2).failPluginCalls ∧
     (onPostBuild opts env1).cancelBuildCalls = (onPostBuild opts env2).cancelBuildCalls) := by
  refine ⟨⟨rfl, rfl, ?_, ?_, rfl, rfl, rfl⟩, ⟨rfl, rfl, ?_, ?_, rfl, rfl, rfl⟩⟩ <;>
    simp [onPreBuild, onPostBuild, hr, hs]

/-- C9 witness: instantiated at the default context and a pair of
environments differing exactly in their `existsSync` answers. -/
theorem exists_check_no_control_flow_witness :
    ((onPreBuild defaultOpts envAllTrue).restoreCalls =
       (onPreBuild defaultOpts { envAllTrue with existsOnDisk := fun _ => false }).restoreCalls ∧
     (onPreBuild defaultOpts envAllTrue).saveCalls =
       (onPreBuild defaultOpts { envAllTrue with existsOnDisk := fun _ => false }).saveCalls ∧
     (onPreBuild defaultOpts envAllTrue).statusCalls =
       (onPreBuild defaultOpts { envAllTrue with existsOnDisk := fun _ => false }).statusCalls ∧
     (onPreBuild defaultOpts envAllTrue).errorLogs =
       (onPreBuild defaultOpts { envAllTrue with existsOnDisk := fun _ => false }).errorLogs ∧
     (onPreBuild defaultOpts envAllTrue).failBuildCalls =
       (onPreBuild defaultOpts { envAllTrue with existsOnDisk := fun _ => false }).failBuildCalls ∧
     (onPreBuild defaultOpts envAllTrue).failPluginCalls =
       (onPreBuild defaultOpts { envAllTrue with existsOnDisk := fun _ => false }).failPluginCalls ∧
     (onPreBuild defaultOpts envAllTrue).cancelBuildCalls =
       (onPreBuild defaultOpts { envAllTrue with existsOnDisk := fun _ => false }).cancelBuildCalls) ∧
    ((onPostBuild defaultOpts envAllTrue).restoreCalls =
       (onPostBuild defaultOpts { envAllTrue with existsOnDisk := fun _ => false }).restoreCalls ∧
     (onPostBuild defaultOpts envAllTrue).saveCalls =
       (onPostBuild defaultOpts { envAllTrue with existsOnDisk := fun _ => false }).saveCalls ∧
     (onPostBuild defaultOpts envAllTrue).statusCalls =
       (onPostBuild defaultOpts { envAllTrue with existsOnDisk := fun _ => false }).statusCalls ∧
     (onPostBuild defaultOpts envAllTrue).errorLogs =
       (onPostBuild defaultOpts { envAllTrue with existsOnDisk := fun _ => false }).errorLogs ∧
     (onPostBuild defaultOpts envAllTrue).failBuildCalls =
       (onPostBuild defaultOpts { envAllTrue with existsOnDisk := fun _ => false }).failBuildCalls ∧
     (onPostBuild defaultOpts envAllTrue).failPluginCalls =
       (onPostBuild defaultOpts { envAllTrue with existsOnDisk := fun _ => false }).failPluginCalls ∧
     (onPostBuild defaultOpts envAllTrue).cancelBuildCalls =
       (onPostBuild defaultOpts { envAllTrue with existsOnDisk := fun _ => false }).cancelBuildCalls) :=
  exists_check_no_control_flow defaultOpts envAllTrue
    { envAllTrue with existsOnDisk := fun _ => false } rfl rfl

/-- C1 counterexample: with the default inputs and a collaborator whose
`save` returns `true`, `onPostBuild` shows a status whose summary is
`"Saved the .next folder"`, not `"Cached the .next folder"` as the claim
states (`"Cached the ..."` is the wording of the log/`text` line, not of
the summary). -/
theorem saveHook_summary_not_cached :
    envAllTrue.saveResult (generateAbsolutePaths defaultOpts.inputs).absolute.buildDir
        [(generateAbsolutePaths defaultOpts.inputs).absolute.manifest] = true ∧
    (onPostBuild defaultOpts envAllTrue).statusCalls.map StatusInfo.summary =
      ["Saved the .next folder"] ∧
    "Saved the .next folder" ≠ "Cached the .next folder" := by
  refine ⟨rfl, ?_, ?_⟩ <;> decide

/-- C1 amended: whenever `utils.cache.save` returns `true`, `onPostBuild`
invokes `utils.status.show` with summary `"Saved the "` ++ the configured
build directory name ++ `" folder"` (its `text` field, like the log line,
reads `"Cached the ... folder at the location ..."`). -/
theorem saveHook_status_on_success (opts : NetlifyOpts) (env : HookEnv)
    (h : env.saveResult (generateAbsolutePaths opts.inputs).absolute.buildDir
      [(generateAbsolutePaths opts.inputs).absolute.manifest] = true) :
    (onPostBuild opts env).statusCalls =
      [{ title := none,
         summary := "Saved the " ++ (generateAbsolutePaths opts.inputs).buildDirName ++
           " folder",
         text := some ("Cached the " ++ (generateAbsolutePaths opts.inputs).buildDirName ++
           " folder at the location " ++
           (generateAbsolutePaths opts.inputs).absolute.buildDir) }] := by
  simp [onPostBuild, h]

/-- C1 amended, witness: instantiated at the default context and an
all-succeeding collaborator environment. -/
theorem saveHook_status_on_success_witness :
    (onPostBuild defaultOpts envAllTrue).statusCalls =
      [{ title := none,
         summary := "Saved the " ++ (generateAbsolutePaths defaultOpts.inputs).buildDirName ++
           " folder",
         text := some ("Cached the " ++ (generateAbsolutePaths defaultOpts.inputs).buildDirName ++
           " folder at the location " ++
           (generateAbsolutePaths defaultOpts.inputs).absolute.buildDir) }] :=
  saveHook_status_on_success defaultOpts envAllTrue rfl

/-! ## Path algebra for C2: `join(P, "..", f)` cancels the last segment -/

/-- Splitting distributes over a separator insertion. -/
theorem splitSegsAux_append (b : List Char) : ∀ (a cur : List Char),
    splitSegsAux cur (a ++ '/' :: b) = splitSegsAux cur a ++ splitSegs b := by
  intro a
  induction a with
  | nil => intro cur; simp [splitSegsAux, splitSegs]
  | cons c a2 ih =>
    intro cur
    by_cases hc : c = '/'
    · subst hc
      simp [splitSegsAux, ih]
    · simp [splitSegsAux, hc, ih]

/-- Splitting distributes over a separator insertion. -/
theorem splitSegs_append (a b : List Char) :
    splitSegs (a ++ '/' :: b) = splitSegs a ++ splitSegs b :=
  splitSegsAux_append b a []

/-- A separator-free character list is a single segment. -/
theorem splitSegsAux_no_slash : ∀ (cs cur : List Char), '/' ∉ cs →
    splitSegsAux cur cs = [cur.reverse ++ cs] := by
  intro cs
  induction cs with
  | nil => intro cur _; simp [splitSegsAux]
  | cons c rest ih =>
    intro cur h
    simp only [List.mem_cons, not_or] at h
    obtain ⟨h1, h2⟩ := h
    have hc : c ≠ '/' := fun e => h1 e.symm
    simp [splitSegsAux, hc, ih (c :: cur) h2]

/-- A separator-free character list is a single segment. -/
theorem splitSegs_no_slash (cs : List Char) (h : '/' ∉ cs) : splitSegs cs = [cs] := by
  simpa using splitSegsAux_no_slash cs [] h

/-- Every segment a split produces is separator-free. -/
theorem mem_splitSegsAux_no_slash : ∀ (cs cur : List Char) (s : Seg),
    '/' ∉ cur → s ∈ splitSegsAux cur cs → '/' ∉ s := by
  intro cs
  induction cs with
  | nil =>
    intro cur s hcur hs
    simp only [splitSegsAux, List.mem_singleton] at hs
    subst hs
    simpa using hcur
  | cons c rest ih =>
    intro cur s hcur hs
    by_cases hc : c = '/'
    · subst hc
      simp only [splitSegsAux, if_pos rfl] at hs
      cases hs with
      | head => simpa using hcur
      | tail b h => exact ih [] s (by simp) h
    · rw [splitSegsAux, if_neg hc] at hs
      refine ih (c :: cur) s ?_ hs
      simp only [List.mem_cons, not_or]
      exact ⟨fun e => hc e.symm, hcur⟩

/-- Every segment a split produces is separator-free. -/
theorem mem_splitSegs_no_slash (cs : List Char) (s : Seg) (h : s ∈ splitSegs cs) :
    '/' ∉ s :=
  mem_splitSegsAux_no_slash cs [] s (by simp) h

/-- Segment resolution processes an appended list in two stages. -/
theorem resolveStack_append (al : Bool) : ∀ (x y st : List Seg),
    resolveStack al st (x ++ y) = resolveStack al (resolveStack al st x) y := by
  intro x
  induction x with
  | nil => intro y st; simp [resolveStack]
  | cons seg rest ih =>
    intro y st
    by_cases hseg : seg = dotdot
    · subst hseg
      cases st with
      | nil => simp [resolveStack, ih]
      | cons top stk2 =>
        by_cases htop : top = dotdot
        · simp [resolveStack, htop, ih]
        · simp [resolveStack, htop, ih]
    · simp [resolveStack, hseg, ih]

/-- Segments other than `".."` are simply pushed. -/
theorem resolveStack_push (al : Bool) : ∀ (xs st : List Seg),
    (∀ s ∈ xs, s ≠ dotdot) → resolveStack al st xs = xs.reverse ++ st := by
  intro xs
  induction xs with
  | nil => intro st _; simp [resolveStack]
  | cons seg rest ih =>
    intro st h
    have hseg : seg ≠ dotdot := h seg (by simp)
    have hrest : ∀ s ∈ rest, s ≠ dotdot := fun s hs => h s (by simp [hs])
    simp [resolveStack, hseg, ih (seg :: st) hrest]

/-- Unfolding step: a `".."` against the empty stack. -/
theorem resolveStack_dd_nil (al : Bool) (L : List Seg) :
    resolveStack al [] (dotdot :: L) =
      resolveStack al (if al then [dotdot] else []) L := by
  simp [resolveStack]

/-- Unfolding step: a `".."` against a stack topped by `".."`. -/
theorem resolveStack_dd_dd (al : Bool) (st L : List Seg) :
    resolveStack al (dotdot :: st) (dotdot :: L) =
      resolveStack al (if al then dotdot :: dotdot :: st else dotdot :: st) L := by
  simp [resolveStack]

/-- In relative mode a run of `".."`s accumulates on an all-`".."` stack. -/
theorem resolveStack_replicate : ∀ (k j : Nat),
    resolveStack true (List.replicate j dotdot) (List.replicate k dotdot) =
      List.replicate (k + j) dotdot := by
  intro k
  induction k with
  | zero => intro j; simp [resolveStack]
  | succ k ih =>
    intro j
    rw [List.replicate_succ]
    cases j with
    | zero =>
      rw [List.replicate_zero, resolveStack_dd_nil, if_pos rfl]
      have h1 := ih 1
      rw [List.replicate_one] at h1
      rw [h1]
    | succ j2 =>
      rw [List.replicate_succ, resolveStack_dd_dd, if_pos rfl]
      have h2 : dotdot :: dotdot :: List.replicate j2 dotdot =
          List.replicate (j2 + 2) dotdot := by
        rw [List.replicate_succ, List.replicate_succ]
      rw [h2, ih (j2 + 2)]
      congr 1
      omega

/-- The empty stack is well-formed. -/
theorem goodStack_nil (al : Bool) : GoodStack al [] :=
  ⟨[], 0, by simp, by simp, fun _ => rfl⟩

/-- The `".."` segment is well-formed. -/
theorem okSeg_dotdot : OkSeg dotdot := ⟨by decide, by decide, by decide⟩

/-- Every entry of a well-formed stack is a well-formed segment. -/
theorem goodStack_okseg (al : Bool) (st : List Seg) (h : GoodStack al st) :
    ∀ s ∈ st, OkSeg s := by
  obtain ⟨front, k, rfl, hf, _⟩ := h
  intro s hs
  rw [List.mem_append] at hs
  rcases hs with h1 | h2
  · exact (hf s h1).1
  · rw [List.eq_of_mem_replicate h2]
    exact okSeg_dotdot

/-- Resolution of well-formed segments preserves stack well-formedness. -/
theorem goodStack_resolve (al : Bool) : ∀ (segs st : List Seg),
    GoodStack al st → (∀ s ∈ segs, OkSeg s) →
    GoodStack al (resolveStack al st segs) := by
  intro segs
  induction segs with
  | nil => intro st h _; simpa [resolveStack] using h
  | cons seg rest ih =>
    intro st hst hsegs
    have hrest : ∀ s ∈ rest, OkSeg s := fun s hs => hsegs s (by simp [hs])
    by_cases hd : seg = dotdot
    · subst hd
      cases st with
      | nil =>
        rw [resolveStack_dd_nil]
        refine ih _ ?_ hrest
        cases al with
        | true =>
          show GoodStack true [dotdot]
          exact ⟨[], 1, by simp, by simp, by simp⟩
        | false =>
          show GoodStack false []
          exact goodStack_nil false
      | cons top stk2 =>
        by_cases htop : top = dotdot
        · subst htop
          rw [resolveStack_dd_dd]
          refine ih _ ?_ hrest
          cases al with
          | true =>
            obtain ⟨front, k, heq, hf, _⟩ := hst
            cases front with
            | cons f fr =>
              exfalso
              rw [List.cons_append] at heq
              injection heq with h1 _
              exact (hf f (by simp)).2 h1.symm
            | nil =>
              simp only [List.nil_append] at heq
              have hstep : GoodStack true (dotdot :: dotdot :: stk2) := by
                cases k with
                | zero => simp at heq
                | succ k2 =>
                  rw [List.replicate_succ] at heq
                  injection heq with _ h2
                  exact ⟨[], k2 + 2, by simp [h2, List.replicate_succ], by simp, by simp⟩
              show GoodStack true (dotdot :: dotdot :: stk2)
              exact hstep
          | false =>
            show GoodStack false (dotdot :: stk2)
            exact hst
        · have hpop : resolveStack al (top :: stk2) (dotdot :: rest) =
              resolveStack al stk2 rest := by
            simp [resolveStack, htop]
          rw [hpop]
          refine ih _ ?_ hrest
          obtain ⟨front, k, heq, hf, hk⟩ := hst
          cases front with
          | nil =>
            exfalso
            simp only [List.nil_append] at heq
            cases k with
            | zero => simp at heq
            | succ k2 =>
              rw [List.replicate_succ] at heq
              injection heq with h1 _
              exact htop h1
          | cons f fr =>
            rw [List.cons_append] at heq
            injection heq with _ h2
            exact ⟨fr, k, h2, fun s hs => hf s (by simp [hs]), hk⟩
    · have hpush : resolveStack al st (seg :: rest) =
          resolveStack al (seg :: st) rest := by
        simp [resolveStack, hd]
      rw [hpush]
      refine ih _ ?_ hrest
      obtain ⟨front, k, heq, hf, hk⟩ := hst
      refine ⟨seg :: front, k, by simp [heq], ?_, hk⟩
      intro s hs
      rcases List.mem_cons.mp hs with h1 | h1
      · subst h1
        exact ⟨hsegs _ (List.mem_cons_self _ _), hd⟩
      · exact hf s h1

/-- Re-resolving a well-formed stack (fed back in path order) is the
identity: leading `".."`s re-accumulate and the rest push back on. -/
theorem goodStack_replay (al : Bool) (st : List Seg) (h : GoodStack al st) :
    resolveStack al [] st.reverse = st := by
  obtain ⟨front, k, rfl, hf, hk⟩ := h
  rw [List.reverse_append, List.reverse_replicate, resolveStack_append]
  have h2 : resolveStack al [] (List.replicate k dotdot) = List.replicate k dotdot := by
    cases al with
    | true => simpa using resolveStack_replicate k 0
    | false =>
      rw [hk rfl]
      simp [resolveStack]
  have h3 : ∀ s ∈ front.reverse, s ≠ dotdot :=
    fun s hs => (hf s (List.mem_reverse.mp hs)).2
  rw [h2, resolveStack_push al front.reverse (List.replicate k dotdot) h3,
    List.reverse_reverse]

/-- The resolved stack of any character list is well-formed. -/
theorem coreSegs_good (al : Bool) (cs : List Char) : GoodStack al (coreSegs al cs) := by
  unfold coreSegs
  refine goodStack_resolve al _ [] (goodStack_nil al) ?_
  intro s hs
  rw [List.mem_filter] at hs
  obtain ⟨h1, h2⟩ := hs
  rw [keepSeg, decide_eq_true_eq] at h2
  exact ⟨h2.1, h2.2, mem_splitSegs_no_slash cs s h1⟩

/-- Unfolding step for a two-or-more-segment join. -/
theorem joinSegs_cons_cons (s s2 : Seg) (S : List Seg) :
    joinSegs (s :: s2 :: S) = s ++ '/' :: joinSegs (s2 :: S) := rfl

/-- Appending a final segment appends `/` plus the segment. -/
theorem joinSegs_concat_cons (s : Seg) (S : List Seg) (t : Seg) :
    joinSegs ((s :: S) ++ [t]) = joinSegs (s :: S) ++ '/' :: t := by
  induction S generalizing s with
  | nil => rfl
  | cons s2 S2 ih =>
    calc joinSegs ((s :: s2 :: S2) ++ [t])
        = s ++ '/' :: joinSegs ((s2 :: S2) ++ [t]) := rfl
      _ = s ++ '/' :: (joinSegs (s2 :: S2) ++ '/' :: t) := by rw [ih s2]
      _ = joinSegs (s :: s2 :: S2) ++ '/' :: t := by
            rw [joinSegs_cons_cons]
            simp

/-- A join ending in a nonempty segment is nonempty. -/
theorem joinSegs_concat_ne_nil (S : List Seg) (t : Seg) (ht : t ≠ []) :
    joinSegs (S ++ [t]) ≠ [] := by
  cases S with
  | nil => simpa [joinSegs] using ht
  | cons s S2 =>
    rw [joinSegs_concat_cons]
    simp

/-- A join of well-formed segments never starts with the separator. -/
theorem joinSegs_head_ne_slash (segs : List Seg) (h : ∀ s ∈ segs, OkSeg s)
    (hne : segs ≠ []) : (joinSegs segs).head? ≠ some '/' := by
  cases segs with
  | nil => exact absurd rfl hne
  | cons s S =>
    have hs := h s (by simp)
    have hhead : (joinSegs (s :: S)).head? = s.head? := by
      cases S with
      | nil => rfl
      | cons s2 S2 =>
        rw [joinSegs_cons_cons]
        cases s with
        | nil => exact absurd rfl hs.1
        | cons c cs2 => rfl
    rw [hhead]
    cases s with
    | nil => exact absurd rfl hs.1
    | cons c cs2 =>
      simp only [List.head?_cons, ne_eq, Option.some.injEq]
      intro hc
      subst hc
      exact hs.2.2 (List.mem_cons_self _ _)

/-- A path whose final segment is separator-free does not end in `/`. -/
theorem append_seg_getLast_ne_slash (X t : List Char) (ht : t ≠ []) (hts : '/' ∉ t) :
    (X ++ '/' :: t).getLast? ≠ some '/' := by
  rcases List.eq_nil_or_concat t with h | ⟨t2, c, rfl⟩
  · exact absurd h ht
  · simp only [List.concat_eq_append] at hts ⊢
    rw [show X ++ '/' :: (t2 ++ [c]) = (X ++ '/' :: t2) ++ [c] by simp]
    rw [List.getLast?_concat]
    intro hc
    rw [Option.some.injEq] at hc
    subst hc
    exact hts (by simp)

/-- Splitting a join of well-formed segments recovers the segments. -/
theorem filter_splitSegs_joinSegs : ∀ (segs : List Seg),
    (∀ s ∈ segs, OkSeg s) →
    (splitSegs (joinSegs segs)).filter keepSeg = segs := by
  intro segs
  induction segs with
  | nil => simp [joinSegs, splitSegs, splitSegsAux, keepSeg]
  | cons s S ih =>
    intro h
    have hs : OkSeg s := h s (by simp)
    have hS : ∀ x ∈ S, OkSeg x := fun x hx => h x (by simp [hx])
    cases S with
    | nil =>
      show (splitSegs (joinSegs [s])).filter keepSeg = [s]
      rw [show joinSegs [s] = s from rfl, splitSegs_no_slash s hs.2.2]
      simp [keepSeg, hs.1, hs.2.1]
    | cons s2 S2 =>
      rw [joinSegs_cons_cons, splitSegs_append, List.filter_append,
        splitSegs_no_slash s hs.2.2]
      have hks : List.filter keepSeg [s] = [s] := by
        simp [keepSeg, hs.1, hs.2.1]
      rw [hks, ih hS]
      rfl

/-- Splitting a rendered path (optional root marker plus joined
well-formed segments) recovers the segments. -/
theorem filter_splitSegs_render (abs : Bool) (segs : List Seg)
    (h : ∀ s ∈ segs, OkSeg s) :
    (splitSegs ((if abs then ['/'] else []) ++ joinSegs segs)).filter keepSeg =
      segs := by
  cases abs with
  | false => simpa using filter_splitSegs_joinSegs segs h
  | true =>
    have h1 : splitSegs ('/' :: joinSegs segs) = [] :: splitSegs (joinSegs segs) := by
      simp [splitSegs, splitSegsAux]
    have h2 : (if true then ['/'] else ([] : List Char)) ++ joinSegs segs =
        '/' :: joinSegs segs := by
      simp
    rw [h2, h1]
    have h3 : keepSeg [] = false := by simp [keepSeg]
    rw [List.filter_cons_of_neg (by simp [h3]), filter_splitSegs_joinSegs segs h]

/-- Node normalize of a path ending in a fresh well-formed, non-`".."`
segment `t`: `t` lands on top of the resolved stack of the prefix, and
the result re-renders behind the prefix absolute-root marker. -/
theorem normalizeChars_append_seg (X t : List Char) (hX : X ≠ []) (ht : OkSeg t)
    (htd : t ≠ dotdot) :
    normalizeChars (X ++ '/' :: t) =
      (if X.head? = some '/' then ['/'] else []) ++
        joinSegs ((t :: coreSegs (!decide (X.head? = some '/')) X).reverse) := by
  have hne : X ++ '/' :: t ≠ [] := by simp
  have hhead : (X ++ '/' :: t).head? = X.head? := by
    cases X with
    | nil => exact absurd rfl hX
    | cons c cs => rfl
  have hlast : (X ++ '/' :: t).getLast? ≠ some '/' :=
    append_seg_getLast_ne_slash X t ht.1 ht.2.2
  have htr : decide ((X ++ '/' :: t).getLast? = some '/') = false :=
    decide_eq_false hlast
  have hcore : ∀ al : Bool, coreSegs al (X ++ '/' :: t) = t :: coreSegs al X := by
    intro al
    unfold coreSegs
    rw [splitSegs_append, List.filter_append, splitSegs_no_slash t ht.2.2]
    have hkt : List.filter keepSeg [t] = [t] := by
      simp [keepSeg, ht.1, ht.2.1]
    rw [hkt, resolveStack_append]
    simp [resolveStack, htd]
  have hbody : ∀ al : Bool, joinSegs ((coreSegs al X).reverse ++ [t]) ≠ [] :=
    fun al => joinSegs_concat_ne_nil _ t ht.1
  unfold normalizeChars
  rw [if_neg hne]
  simp only [hhead, htr, hcore]
  by_cases habs : X.head? = some '/' <;>
    simp [habs, hbody]

/-- Head of an append with nonempty left part. -/
theorem head?_append_left {α : Type _} (a b : List α) (ha : a ≠ []) :
    (a ++ b).head? = a.head? := by
  cases a with
  | nil => exact absurd rfl ha
  | cons x l => rfl

/-- `path.join` of two nonempty strings concatenates with one `/` and
normalizes. -/
theorem joinPaths_two (a c : String) (ha : a.toList ≠ []) (hc : c.toList ≠ []) :
    joinPaths [a, c] =
      String.mk (normalizeChars (a.toList ++ '/' :: c.toList)) := by
  have hfil : List.filter (fun p => decide (p ≠ [])) [a.toList, c.toList]
      = [a.toList, c.toList] := by
    rw [List.filter_eq_self]
    intro x hx
    rcases List.mem_cons.mp hx with h | h
    · subst h; exact decide_eq_true ha
    · rw [List.mem_singleton] at h
      subst h; exact decide_eq_true hc
  simp only [joinPaths, List.map_cons, List.map_nil]
  rw [hfil, if_neg (by simp : ¬([a.toList, c.toList] = ([] : List (List Char))))]
  rfl

/-- `path.join` of three nonempty strings concatenates with `/`s and
normalizes. -/
theorem joinPaths_three (a b c : String) (ha : a.toList ≠ []) (hb : b.toList ≠ [])
    (hc : c.toList ≠ []) :
    joinPaths [a, b, c] =
      String.mk (normalizeChars ((a.toList ++ '/' :: b.toList) ++ '/' :: c.toList)) := by
  have hfil : List.filter (fun p => decide (p ≠ [])) [a.toList, b.toList, c.toList]
      = [a.toList, b.toList, c.toList] := by
    rw [List.filter_eq_self]
    intro x hx
    rcases List.mem_cons.mp hx with h | h
    · subst h; exact decide_eq_true ha
    rcases List.mem_cons.mp h with h2 | h2
    · subst h2; exact decide_eq_true hb
    rw [List.mem_singleton] at h2
    subst h2; exact decide_eq_true hc
  simp only [joinPaths, List.map_cons, List.map_nil]
  rw [hfil, if_neg (by simp : ¬([a.toList, b.toList, c.toList] = ([] : List (List Char))))]
  have hjs : joinSegs [a.toList, b.toList, c.toList] =
      (a.toList ++ '/' :: b.toList) ++ '/' :: c.toList := by
    rw [joinSegs_cons_cons]
    simp [joinSegs]
  rw [hjs]

/-- `path.join` drops an empty first argument. -/
theorem joinPaths_head_empty (rest : List String) :
    joinPaths ("" :: rest) = joinPaths rest := rfl

/-- `path.join` drops an empty second argument. -/
theorem joinPaths_mid_empty (a : String) (rest : List String) :
    joinPaths (a :: "" :: rest) = joinPaths (a :: rest) := by
  have he : decide (((("" : String)).toList) ≠ []) = false := rfl
  have hps : List.filter (fun p => decide (p ≠ [])) (List.map String.toList (a :: "" :: rest))
      = List.filter (fun p => decide (p ≠ [])) (List.map String.toList (a :: rest)) := by
    simp only [List.map_cons, List.filter_cons, he]
    simp
  simp only [joinPaths]
  rw [hps]

/-- Definitional equation of `coreSegs`, for rewriting one occurrence. -/
theorem coreSegs_def (al : Bool) (cs : List Char) :
    coreSegs al cs = resolveStack al [] ((splitSegs cs).filter keepSeg) := rfl

/-- The heart of C2: joining a normalized `X/t` with `".."` and a fresh
segment `u` replaces `t` by `u` — the `t/..` pair cancels inside Node
normalize, landing back on the resolved stack of `X`. -/
theorem join_after_normalize (X : List Char) (hX : X ≠ []) (t : Seg) (u : String)
    (ht : OkSeg t) (htd : t ≠ dotdot) (hu : OkSeg u.toList)
    (hud : u.toList ≠ dotdot) :
    joinPaths [String.mk (normalizeChars (X ++ '/' :: t)), "..", u] =
      String.mk (normalizeChars (X ++ '/' :: u.toList)) := by
  have hml_t := normalizeChars_append_seg X t hX ht htd
  have hml_u := normalizeChars_append_seg X u.toList hX hu hud
  by_cases habs : X.head? = some '/'
  · rw [if_pos habs, decide_eq_true habs, Bool.not_true] at hml_t hml_u
    have hgood : GoodStack false (coreSegs false X) := coreSegs_good false X
    have hok : ∀ s ∈ (t :: coreSegs false X).reverse, OkSeg s := by
      intro s hs
      rw [List.mem_reverse, List.mem_cons] at hs
      rcases hs with h1 | h1
      · subst h1; exact ht
      · exact goodStack_okseg false _ hgood s h1
    have hBl : (String.mk (normalizeChars (X ++ '/' :: t))).toList =
        '/' :: joinSegs ((t :: coreSegs false X).reverse) := by
      rw [show (String.mk (normalizeChars (X ++ '/' :: t))).toList
          = normalizeChars (X ++ '/' :: t) from rfl, hml_t]
      rfl
    have hBne : (String.mk (normalizeChars (X ++ '/' :: t))).toList ≠ [] := by
      rw [hBl]; simp
    rw [joinPaths_three (String.mk (normalizeChars (X ++ '/' :: t))) ".." u
      hBne (by decide) hu.1]
    rw [hBl, show ("..").toList = dotdot from rfl]
    have hX2 : ('/' :: joinSegs ((t :: coreSegs false X).reverse)) ++ '/' :: dotdot ≠ [] := by
      simp
    rw [normalizeChars_append_seg _ u.toList hX2 hu hud]
    have hX2head :
        (('/' :: joinSegs ((t :: coreSegs false X).reverse)) ++ '/' :: dotdot).head?
          = some '/' := rfl
    rw [hX2head, if_pos rfl, decide_eq_true rfl, Bool.not_true]
    have hsplitB :
        (splitSegs ('/' :: joinSegs ((t :: coreSegs false X).reverse))).filter keepSeg
          = (t :: coreSegs false X).reverse := by
      have h5 := filter_splitSegs_render true ((t :: coreSegs false X).reverse) hok
      simpa using h5
    have hcoreX2 : coreSegs false
        (('/' :: joinSegs ((t :: coreSegs false X).reverse)) ++ '/' :: dotdot)
        = coreSegs false X := by
      rw [coreSegs_def false
        (('/' :: joinSegs ((t :: coreSegs false X).reverse)) ++ '/' :: dotdot)]
      rw [splitSegs_append, List.filter_append, hsplitB,
        splitSegs_no_slash dotdot (by decide),
        show List.filter keepSeg [dotdot] = [dotdot] by decide]
      rw [List.reverse_cons,
        resolveStack_append false ((coreSegs false X).reverse ++ [t]) [dotdot] [],
        resolveStack_append false (coreSegs false X).reverse [t] [],
        goodStack_replay false _ hgood]
      rw [show resolveStack false (coreSegs false X) [t] = t :: coreSegs false X by
        simp [resolveStack, htd]]
      simp [resolveStack, htd]
    rw [hcoreX2, hml_u]
  · rw [if_neg habs, decide_eq_false habs, Bool.not_false] at hml_t hml_u
    simp only [List.nil_append] at hml_t hml_u
    have hgood : GoodStack true (coreSegs true X) := coreSegs_good true X
    have hok : ∀ s ∈ (t :: coreSegs true X).reverse, OkSeg s := by
      intro s hs
      rw [List.mem_reverse, List.mem_cons] at hs
      rcases hs with h1 | h1
      · subst h1; exact ht
      · exact goodStack_okseg true _ hgood s h1
    have hne2 : (t :: coreSegs true X).reverse ≠ [] := by simp
    have hBne2 : joinSegs ((t :: coreSegs true X).reverse) ≠ [] := by
      rw [List.reverse_cons]
      exact joinSegs_concat_ne_nil _ t ht.1
    have hBl : (String.mk (normalizeChars (X ++ '/' :: t))).toList =
        joinSegs ((t :: coreSegs true X).reverse) := by
      rw [show (String.mk (normalizeChars (X ++ '/' :: t))).toList
          = normalizeChars (X ++ '/' :: t) from rfl, hml_t]
    have hBne : (String.mk (normalizeChars (X ++ '/' :: t))).toList ≠ [] := by
      rw [hBl]
      exact hBne2
    rw [joinPaths_three (String.mk (normalizeChars (X ++ '/' :: t))) ".." u
      hBne (by decide) hu.1]
    rw [hBl, show ("..").toList = dotdot from rfl]
    have hX2 : joinSegs ((t :: coreSegs true X).reverse) ++ '/' :: dotdot ≠ [] := by
      simp
    rw [normalizeChars_append_seg _ u.toList hX2 hu hud]
    have hX2head :
        (joinSegs ((t :: coreSegs true X).reverse) ++ '/' :: dotdot).head? ≠ some '/' := by
      rw [head?_append_left _ _ hBne2]
      exact joinSegs_head_ne_slash _ hok hne2
    rw [if_neg hX2head, decide_eq_false hX2head, Bool.not_false]
    simp only [List.nil_append]
    have hsplitB :
        (splitSegs (joinSegs ((t :: coreSegs true X).reverse))).filter keepSeg
          = (t :: coreSegs true X).reverse := by
      have h5 := filter_splitSegs_render false ((t :: coreSegs true X).reverse) hok
      simpa using h5
    have hcoreX2 : coreSegs true
        (joinSegs ((t :: coreSegs true X).reverse) ++ '/' :: dotdot)
        = coreSegs true X := by
      rw [coreSegs_def true
        (joinSegs ((t :: coreSegs true X).reverse) ++ '/' :: dotdot)]
      rw [splitSegs_append, List.filter_append, hsplitB,
        splitSegs_no_slash dotdot (by decide),
        show List.filter keepSeg [dotdot] = [dotdot] by decide]
      rw [List.reverse_cons,
        resolveStack_append true ((coreSegs true X).reverse ++ [t]) [dotdot] [],
        resolveStack_append true (coreSegs true X).reverse [t] [],
        goodStack_replay true _ hgood]
      rw [show resolveStack true (coreSegs true X) [t] = t :: coreSegs true X by
        simp [resolveStack, htd]]
      simp [resolveStack, htd]
    rw [hcoreX2, hml_u]

/-- C2: for every pair of configuration-input strings, the resolved
`buildDir` equals `join(build_dir_path, custom_build_dir_name, "cache")`
and the resolved `manifest` equals the sibling file
`build-manifest.json` under the parent directory
`join(build_dir_path, custom_build_dir_name)`, i.e.
`join(build_dir_path, custom_build_dir_name, "build-manifest.json")`. -/
theorem pathResolver_manifest_sibling (n p : String) :
    (generateAbsolutePaths
        { custom_build_dir_name := n, build_dir_path := p }).absolute.buildDir
      = joinPaths [p, n, "cache"] ∧
    (generateAbsolutePaths
        { custom_build_dir_name := n, build_dir_path := p }).absolute.manifest
      = joinPaths [p, n, "build-manifest.json"] := by
  refine ⟨rfl, ?_⟩
  show joinPaths [joinPaths [p, n, "cache"], "..", "build-manifest.json"]
      = joinPaths [p, n, "build-manifest.json"]
  by_cases hp : p.toList = []
  · have hp0 : p = "" := by
      cases p with
      | mk d =>
        have hd : d = [] := hp
        subst hd
        rfl
    subst hp0
    by_cases hn : n.toList = []
    · have hn0 : n = "" := by
        cases n with
        | mk d =>
          have hd : d = [] := hn
          subst hd
          rfl
      subst hn0
      decide
    · rw [joinPaths_head_empty [n, "cache"],
        joinPaths_head_empty [n, "build-manifest.json"]]
      rw [joinPaths_two n "cache" hn (by decide),
        joinPaths_two n "build-manifest.json" hn (by decide)]
      exact join_after_normalize n.toList hn ("cache").toList "build-manifest.json"
        ⟨by decide, by decide, by decide⟩ (by decide)
        ⟨by decide, by decide, by decide⟩ (by decide)
  · by_cases hn : n.toList = []
    · have hn0 : n = "" := by
        cases n with
        | mk d =>
          have hd : d = [] := hn
          subst hd
          rfl
      subst hn0
      rw [joinPaths_mid_empty p ["cache"], joinPaths_mid_empty p ["build-manifest.json"]]
      rw [joinPaths_two p "cache" hp (by decide),
        joinPaths_two p "build-manifest.json" hp (by decide)]
      exact join_after_normalize p.toList hp ("cache").toList "build-manifest.json"
        ⟨by decide, by decide, by decide⟩ (by decide)
        ⟨by decide, by decide, by decide⟩ (by decide)
    · rw [joinPaths_three p n "cache" hp hn (by decide),
        joinPaths_three p n "build-manifest.json" hp hn (by decide)]
      exact join_after_normalize (p.toList ++ '/' :: n.toList) (by simp)
        ("cache").toList "build-manifest.json"
        ⟨by decide, by decide, by decide⟩ (by decide)
        ⟨by decide, by decide, by decide⟩ (by decide)

end NetlifyCacheNextjs
